import Mathlib

/-!
Verification of the metafmt dispatch front-end (metafmt.go).

The embedding models Go strings used as file paths as lists of characters
(`GoStr`), byte streams as lists of naturals (`Bytes`), and an external
command as its token list (`Cmd`).  The external process runner is an
abstract function `Runner`; the chain executor, registry and dispatch
operations are translated from the source.
-/

set_option autoImplicit false

/-- A Go string viewed character by character (used for file paths and
registry keys, where the code inspects individual characters). -/
abbrev GoStr := List Char

/-- A byte stream flowing through the formatter pipeline. -/
abbrev Bytes := List Nat

/-- One external command: program name followed by its arguments
(Go type `[]string`). -/
abbrev Cmd := List String

/-- A formatter description, from `type formatter struct` in metafmt.go. -/
structure Formatter where
  Commands : List Cmd
  EmacsMajorModes : List String
  Extensions : List GoStr
  deriving DecidableEq

/-- The static formatter table entry for C and C++. -/
def fmtCpp : Formatter :=
  { Commands := [["clang-format", "-style=WebKit", "-"]]
    EmacsMajorModes := ["c-mode", "c++-mode"]
    Extensions := [".c".toList, ".cpp".toList, ".cxx".toList, ".h".toList, ".hpp".toList, ".hxx".toList] }

/-- The static formatter table entry for CSS. -/
def fmtCss : Formatter :=
  { Commands := [["cssbeautify-bin", "--autosemicolon", "-f", "-"]]
    EmacsMajorModes := ["css-mode"]
    Extensions := [".css".toList] }

/-- The static formatter table entry for Go. -/
def fmtGo : Formatter :=
  { Commands := [["goimports"]]
    EmacsMajorModes := ["go-mode"]
    Extensions := [".go".toList] }

/-- The static formatter table entry for JavaScript. -/
def fmtJs : Formatter :=
  { Commands := [["semistandard-format", "-"]]
    EmacsMajorModes := ["js-mode", "js2-mode", "js3-mode"]
    Extensions := [".js".toList, ".jsx".toList] }

/-- The static formatter table entry for JSON. -/
def fmtJson : Formatter :=
  { Commands := [["jsonlint", "-"]]
    EmacsMajorModes := ["json-mode"]
    Extensions := [".json".toList] }

/-- The static formatter table entry for Python (a two-stage chain). -/
def fmtPy : Formatter :=
  { Commands := [["autopep8", "--max-line-length=98", "-"],
                 ["isort", "--line-width", "98", "--multi_line", "3", "-"]]
    EmacsMajorModes := ["python-mode"]
    Extensions := [".py".toList] }

/-- The static formatter table entry for SASS. -/
def fmtSass : Formatter :=
  { Commands := [["sass-convert", "--no-cache", "--from", "sass", "--to", "sass", "--indent", "4", "--stdin"]]
    EmacsMajorModes := ["sass-mode"]
    Extensions := [".sass".toList] }

/-- The static formatter table entry for SCSS. -/
def fmtScss : Formatter :=
  { Commands := [["sass-convert", "--no-cache", "--from", "scss", "--to", "scss", "--indent", "4", "--stdin"]]
    EmacsMajorModes := ["scss-mode"]
    Extensions := [".scss".toList] }

/-- `var formatters = []*formatter{...}`: the static formatter list, in
source order. -/
def formattersList : List Formatter :=
  [fmtCpp, fmtCss, fmtGo, fmtJs, fmtJson, fmtPy, fmtSass, fmtScss]

/-- Lookup in an association-list model of a Go map.  The list is ordered
most-recent-insertion-first, so taking the first hit gives the overwrite
(last-write-wins) semantics of `m[k] = v`. -/
def mapLookup {κ α : Type} [DecidableEq κ] (k : κ) : List (κ × α) → Option α
  | [] => none
  | (k₁, v) :: rest => if k₁ = k then some v else mapLookup k rest

/-- Insert one value under each of the given keys (the inner loops of
`func init()`); each insertion overwrites any earlier binding of the key. -/
def insertKeys {κ α : Type} (v : α) : List κ → List (κ × α) → List (κ × α)
  | [], m => m
  | k :: ks, m => insertKeys v ks ((k, v) :: m)

/-- The outer loop of `func init()`: walk the formatter list, registering
every key produced by `proj` for each formatter. -/
def buildMapAux {κ : Type} (proj : Formatter → List κ) : List Formatter → List (κ × Formatter) → List (κ × Formatter)
  | [], m => m
  | f :: rest, m => buildMapAux proj rest (insertKeys f (proj f) m)

/-- `var extToFormatter`: extension key to formatter, built by `init`. -/
def extToFormatter : List (GoStr × Formatter) :=
  buildMapAux (fun f => f.Extensions) formattersList []

/-- `var emacsToFormatter`: Emacs major-mode key to formatter, built by
`init`. -/
def emacsToFormatter : List (String × Formatter) :=
  buildMapAux (fun f => f.EmacsMajorModes) formattersList []

/-- The backward scan of `filepath.Ext`, applied to the reversed path.
`acc` holds the characters already scanned, in original order.  The scan
stops at a path separator; at a dot it returns the suffix of the path
starting at that dot. -/
def extGoAux : GoStr → GoStr → GoStr
  | [], _ => []
  | c :: rest, acc =>
    if c = '/' then []
    else if c = '.' then c :: acc
    else extGoAux rest (c :: acc)

/-- `filepath.Ext(path)`: the suffix of the final path element starting at
its last dot, or the empty string when the final element has no dot.
(On this platform the only path separator is the slash.) -/
def extGo (p : GoStr) : GoStr := extGoAux p.reverse []

/-- The same backward scan without the separator check: the suffix of the
whole path starting at its last dot, empty when the path has no dot. -/
def specExtAux : GoStr → GoStr → GoStr
  | [], _ => []
  | c :: rest, acc =>
    if c = '.' then c :: acc
    else specExtAux rest (c :: acc)

/-- Modelled from the spec: the extension as the spec describes it, the
substring of the path from the last dot to the end of the string,
including the dot; empty when the path contains no dot. -/
def specExt (p : GoStr) : GoStr := specExtAux p.reverse []

/-- `func formatterForPath`: resolve a formatter from the extension of a
path; `nil` (here `none`) when the path has no extension or the extension
is not registered. -/
def formatterForPath (p : GoStr) : Option Formatter :=
  if extGo p = [] then none
  else mapLookup (extGo p) extToFormatter

/-- Modelled from the spec: resolve-by-extension as described in the spec,
extracting the substring of the path from its last dot to the end and
looking it up; no formatter when the path contains no dot. -/
def specResolveByExtension (p : GoStr) : Option Formatter :=
  if specExt p = [] then none
  else mapLookup (specExt p) extToFormatter

/-- `func formatterForEmacs`: resolve a formatter from the Emacs major
mode flag; `none` for the empty mode or an unregistered mode. -/
def formatterForEmacs (emacsMode : String) : Option Formatter :=
  if emacsMode = "" then none
  else mapLookup emacsMode emacsToFormatter

/-- A well-formed extension string: a dot followed by characters that are
neither dots nor path separators (the shape of every key the registry
holds and of every nonempty value `filepath.Ext` can produce). -/
def isStdExt : GoStr → Bool
  | [] => false
  | c :: s => decide (c = '.') && decide ('.' ∉ s) && decide ('/' ∉ s)

/-- The behavior of one external process invocation: given the command and
the bytes on standard input, either the captured standard output or the
error surfaced by `cmd.Run()`.  The formatter programs are external
collaborators, so the runner is a parameter of the chain executor. -/
abbrev Runner := Cmd → Bytes → Except String Bytes

/-- The iterations of the loop in `func formatChain` after the first one:
the buffered output of the previous stage is copied to `tmp`, `buf` is
reset, and the command runs with `tmp` as input, filling `buf` again.
Returns the final content of `buf` (or the first error) together with the
list of commands that were actually spawned. -/
def chainLoop (run : Runner) : List Cmd → Bytes → Except String Bytes × List Cmd
  | [], buf => (Except.ok buf, [])
  | command :: rest, buf =>
    match run command buf with
    | Except.error e => (Except.error e, [command])
    | Except.ok out =>
      let next := chainLoop run rest out
      (next.1, command :: next.2)

/-- The loop of `func formatChain`: the first iteration reads the caller
supplied source directly (`stepSrc = src` when `i == 0`); every later
iteration reads the materialized output of the previous stage.  Returns
the final content of `buf` and the commands spawned. -/
def formatChainT (run : Runner) (chain : List Cmd) (src : Bytes) : Except String Bytes × List Cmd :=
  match chain with
  | [] => (Except.ok [], [])
  | command :: rest =>
    match run command src with
    | Except.error e => (Except.error e, [command])
    | Except.ok out =>
      let next := chainLoop run rest out
      (next.1, command :: next.2)

/-- `func formatChain` including its final `io.Copy(dst, &buf)`: the third
component is the bytes written to the destination, which stays empty when
any stage fails because the function returns before the copy. -/
def chainToDst (run : Runner) (chain : List Cmd) (src : Bytes) : Except String Unit × List Cmd × Bytes :=
  match formatChainT run chain src with
  | (Except.error e, sp) => (Except.error e, sp, [])
  | (Except.ok buf, sp) => (Except.ok (), sp, buf)

/-- Modelled from the spec: the left-to-right composition of the Process
Runner over the commands in their declared order. -/
def composeChain (run : Runner) (chain : List Cmd) (src : Bytes) : Except String Bytes :=
  chain.foldlM (fun b c => run c b) src

/-- `func format`: the process runner accesses the first token of the
command as the program name (`exec.Command(command[0], command[1:]...)`);
the access is partial, hence the `Option`. -/
def spawnProgram (c : Cmd) : Option (String × List String) :=
  match c with
  | [] => none
  | prog :: rest => some (prog, rest)

/-- The observable file-system and process effects of one dispatch
operation. -/
inductive Event
  | openRW (p : GoStr)
  | openR (p : GoStr)
  | spawn (c : Cmd)
  | truncate (p : GoStr)
  | seek (p : GoStr)
  | writeFile (p : GoStr) (b : Bytes)
  | stdout (b : Bytes)
  deriving DecidableEq

/-- Events that mutate the on-disk bytes of a file (or move its write
position). -/
def isFileWriteEvent : Event → Bool
  | Event.truncate _ => true
  | Event.seek _ => true
  | Event.writeFile _ _ => true
  | _ => false

/-- The on-disk state: each path with its byte content. -/
abbrev FS := List (GoStr × Bytes)

/-- Replace the content stored under a path, keeping every other file. -/
def fsUpdate (p : GoStr) (b : Bytes) (fs : FS) : FS :=
  fs.map fun kv => if kv.1 = p then (kv.1, b) else kv

/-- `file.Truncate(n)`: the content is cut to the first `n` bytes. -/
def fileTruncate (content : Bytes) (n : Nat) : Bytes := content.take n

/-- Writing `b` into a file at write position `pos`: bytes before `pos`
are kept, a gap past the end is zero-filled, and bytes beyond the write
survive. -/
def writeAt (pos : Nat) (content b : Bytes) : Bytes :=
  content.take pos ++ List.replicate (pos - content.length) 0 ++ b ++ content.drop (pos + b.length)

/-- `func formatWrite`: open the file read-write (an error when it does
not exist), run the whole chain into an in-memory buffer with the file as
the first stage input, and only on success truncate to zero, seek to the
start and copy the buffer into the file. -/
def formatWrite (run : Runner) (path : GoStr) (f : Formatter) (fs : FS) : Except String Unit × FS × List Event :=
  match mapLookup path fs with
  | none => (Except.error "open failed", fs, [Event.openRW path])
  | some a =>
    match chainToDst run f.Commands a with
    | (Except.error e, sp, _) =>
      (Except.error e, fs, Event.openRW path :: sp.map Event.spawn)
    | (Except.ok _, sp, b) =>
      let afterTruncate := fileTruncate a 0
      let afterWrite := writeAt 0 afterTruncate b
      (Except.ok (), fsUpdate path afterWrite fs,
        Event.openRW path :: sp.map Event.spawn ++ [Event.truncate path, Event.seek path, Event.writeFile path b])

/-- `func formatStdout`: open the file read-only (an error when it does
not exist) and run the chain with standard output as destination; the
file system is never written. -/
def formatStdout (run : Runner) (path : GoStr) (f : Formatter) (fs : FS) : Except String Unit × FS × List Event :=
  match mapLookup path fs with
  | none => (Except.error "open failed", fs, [Event.openR path])
  | some a =>
    match chainToDst run f.Commands a with
    | (Except.error e, sp, _) =>
      (Except.error e, fs, Event.openR path :: sp.map Event.spawn)
    | (Except.ok _, sp, b) =>
      (Except.ok (), fs, Event.openR path :: sp.map Event.spawn ++ [Event.stdout b])

/-- The type of the two dispatch operations selected in `main` by the
write flag. -/
abbrev FormatOp := GoStr → Formatter → FS → Except String Unit × FS × List Event

/-- `func formatFile`: resolve the formatter from the path extension; when
none is registered the file is silently skipped, otherwise the selected
operation runs (a returned error is fatal for the process). -/
def formatFile (op : FormatOp) (path : GoStr) (fs : FS) : Except String Unit × FS × List Event :=
  match formatterForPath path with
  | none => (Except.ok (), fs, [])
  | some f => op path f fs

/-- `func formatStdin`: resolve the formatter from the Emacs major mode;
without one the run fails before any file or process activity, otherwise
the chain runs from standard input to standard output. -/
def formatStdin (run : Runner) (emacsMode : String) (stdinBytes : Bytes) : Except String Unit × List Event :=
  match formatterForEmacs emacsMode with
  | none => (Except.error "Must be given an Emacs major mode", [])
  | some f =>
    match chainToDst run f.Commands stdinBytes with
    | (Except.error e, sp, _) => (Except.error e, sp.map Event.spawn)
    | (Except.ok _, sp, b) => (Except.ok (), sp.map Event.spawn ++ [Event.stdout b])

/-- One dispatch performed by the loop in `main`: either the directory
walk or the single-file dispatch, on a given path argument. -/
inductive MainCall
  | dirWalk (p : GoStr)
  | file (p : GoStr)
  deriving DecidableEq

/-- The path argument a dispatch call was applied to. -/
def MainCall.path : MainCall → GoStr
  | MainCall.dirWalk p => p
  | MainCall.file p => p

/-- The three shapes of a `main` run after flag parsing. -/
inductive MainOutcome
  | usageNothing
  | stdinMode
  | dispatched (calls : List MainCall)
  deriving DecidableEq

/-- `func main` after flag parsing: with no arguments it returns, with the
single argument dash it formats standard input, otherwise it applies the
dispatch (directory walk or single file) to every path argument in
order. -/
def mainRun (isDir : GoStr → Bool) (args : List GoStr) : MainOutcome :=
  if args.length < 1 then MainOutcome.usageNothing
  else if args.length = 1 ∧ args.head? = some ['-'] then MainOutcome.stdinMode
  else MainOutcome.dispatched
    (args.map fun p => if isDir p then MainCall.dirWalk p else MainCall.file p)

/-- A runner for witnesses: every command succeeds, prepending the length
of its token list to the stream. -/
def runLenW : Runner := fun c b => Except.ok (c.length :: b)

/-- A runner for witnesses: every command succeeds, appending the byte 1. -/
def runOkW : Runner := fun _ b => Except.ok (b ++ [1])

/-- A runner for witnesses: the command whose program name is `fail`
errors, every other command prepends a zero byte. -/
def runFailW : Runner := fun c b =>
  if c.head? = some "fail" then Except.error "boom" else Except.ok (0 :: b)

/-- A dispatch operation for witnesses that would report activity if it
were ever invoked. -/
def opW : FormatOp := fun p _ fs => (Except.error "boom", fs, [Event.openRW p])

theorem mapLookup_insertKeys {κ α : Type} [DecidableEq κ] (v : α) :
    ∀ (ks : List κ) (m : List (κ × α)) (k : κ),
      mapLookup k (insertKeys v ks m) = if k ∈ ks then some v else mapLookup k m := by
  intro ks
  induction ks with
  | nil => intro m k; simp [insertKeys]
  | cons k₀ ks ih =>
    intro m k
    rw [insertKeys, ih]
    by_cases hk : k ∈ ks
    · simp [hk, List.mem_cons]
    · by_cases h0 : k₀ = k
      · subst h0
        simp [hk, mapLookup]
      · simp [hk, h0, mapLookup, Ne.symm h0]

theorem mapLookup_buildMapAux_none {κ : Type} [DecidableEq κ] (proj : Formatter → List κ) :
    ∀ (l : List Formatter) (m : List (κ × Formatter)) (k : κ),
      (∀ f ∈ l, k ∉ proj f) → mapLookup k (buildMapAux proj l m) = mapLookup k m := by
  intro l
  induction l with
  | nil => intro m k _; rfl
  | cons f rest ih =>
    intro m k h
    rw [buildMapAux, ih _ _ (fun g hg => h g (List.mem_cons_of_mem f hg)),
      mapLookup_insertKeys]
    simp [h f (List.mem_cons_self f rest)]

theorem mapLookup_mem_keys {κ α : Type} [DecidableEq κ] (k : κ) (v : α) :
    ∀ m : List (κ × α), mapLookup k m = some v → k ∈ m.map Prod.fst := by
  intro m
  induction m with
  | nil => intro h; exact absurd h (by simp [mapLookup])
  | cons kv rest ih =>
    intro h
    rw [mapLookup] at h
    by_cases hk : kv.1 = k
    · simp [hk.symm]
    · simp only [hk, if_false] at h
      simp [ih h]

theorem extKeys_no_slash : ∀ k ∈ extToFormatter.map Prod.fst, '/' ∉ k := by decide

theorem mapLookup_slash_none (k : GoStr) (h : '/' ∈ k) :
    mapLookup k extToFormatter = none := by
  cases hl : mapLookup k extToFormatter with
  | none => rfl
  | some f =>
    exact absurd h (extKeys_no_slash k (mapLookup_mem_keys k f extToFormatter hl))

theorem lookup_ext_registered :
    ∀ f ∈ formattersList, ∀ e ∈ f.Extensions, mapLookup e extToFormatter = some f := by
  decide

theorem specExtAux_shape :
    ∀ (r acc : GoStr), specExtAux r acc = [] ∨ ∃ t, specExtAux r acc = '.' :: (t ++ acc) := by
  intro r
  induction r with
  | nil => intro acc; exact Or.inl rfl
  | cons c rest ih =>
    intro acc
    by_cases hc : c = '.'
    · subst hc
      exact Or.inr ⟨[], by simp [specExtAux]⟩
    · rw [specExtAux, if_neg hc]
      rcases ih (c :: acc) with h | ⟨t, ht⟩
      · exact Or.inl h
      · exact Or.inr ⟨t ++ [c], by rw [ht]; simp⟩

theorem extGo_specExt_dichotomy :
    ∀ (r acc : GoStr),
      extGoAux r acc = specExtAux r acc ∨
        (extGoAux r acc = [] ∧ ('/' ∈ specExtAux r acc ∨ specExtAux r acc = [])) := by
  intro r
  induction r with
  | nil => intro acc; exact Or.inl rfl
  | cons c rest ih =>
    intro acc
    by_cases hsep : c = '/'
    · subst hsep
      have hdot : ('/' : Char) ≠ '.' := by decide
      rw [extGoAux, if_pos rfl, specExtAux, if_neg hdot]
      rcases specExtAux_shape rest ('/' :: acc) with h | ⟨t, ht⟩
      · exact Or.inr ⟨rfl, Or.inr h⟩
      · refine Or.inr ⟨rfl, Or.inl ?_⟩
        rw [ht]
        simp
    · by_cases hc : c = '.'
      · subst hc
        rw [extGoAux, if_neg hsep, if_pos rfl, specExtAux, if_pos rfl]
        exact Or.inl rfl
      · rw [extGoAux, if_neg hsep, if_neg hc, specExtAux, if_neg hc]
        exact ih (c :: acc)

theorem extGoAux_after_clean :
    ∀ (l r acc : GoStr), (∀ ch ∈ l, ch ≠ '.' ∧ ch ≠ '/') →
      extGoAux (l ++ '.' :: r) acc = '.' :: (l.reverse ++ acc) := by
  intro l
  induction l with
  | nil => intro r acc _; simp [extGoAux]
  | cons c l ih =>
    intro r acc h
    have hc := h c (List.mem_cons_self c l)
    rw [List.cons_append, extGoAux, if_neg hc.2, if_neg hc.1,
      ih r (c :: acc) (fun ch hch => h ch (List.mem_cons_of_mem c hch))]
    simp

theorem isStdExt_parts (e : GoStr) (h : isStdExt e = true) :
    ∃ s, e = '.' :: s ∧ '.' ∉ s ∧ '/' ∉ s := by
  cases e with
  | nil => exact absurd h (by simp [isStdExt])
  | cons c s =>
    rw [isStdExt] at h
    simp only [Bool.and_eq_true, decide_eq_true_eq] at h
    exact ⟨s, by rw [h.1.1], h.1.2, h.2⟩

theorem extGo_of_ext_suffix (e q : GoStr) (h : isStdExt e = true) :
    extGo (q ++ e) = e := by
  obtain ⟨s, rfl, hdot, hsep⟩ := isStdExt_parts e h
  rw [extGo, List.reverse_append, List.reverse_cons, List.append_assoc]
  rw [List.singleton_append, extGoAux_after_clean]
  · simp
  · intro ch hch
    rw [List.mem_reverse] at hch
    exact ⟨fun hh => hdot (hh ▸ hch), fun hh => hsep (hh ▸ hch)⟩

theorem chainLoop_fst_eq_compose (run : Runner) :
    ∀ (chain : List Cmd) (buf : Bytes),
      (chainLoop run chain buf).1 = composeChain run chain buf := by
  intro chain
  induction chain with
  | nil => intro buf; rfl
  | cons c rest ih =>
    intro buf
    rw [chainLoop, composeChain, List.foldlM_cons]
    cases hr : run c buf with
    | error e => rfl
    | ok out =>
      simp only []
      rw [ih out, composeChain]
      rfl

theorem formatChainT_cons (run : Runner) (c : Cmd) (rest : List Cmd) (src : Bytes) :
    formatChainT run (c :: rest) src = chainLoop run (c :: rest) src := rfl

theorem chainLoop_first_fail (run : Runner) (c : Cmd) (post : List Cmd) (b : Bytes) (e : String)
    (hfail : run c b = Except.error e) :
    ∀ (pre : List Cmd) (buf : Bytes), composeChain run pre buf = Except.ok b →
      chainLoop run (pre ++ c :: post) buf = (Except.error e, pre ++ [c]) := by
  intro pre
  induction pre with
  | nil =>
    intro buf hok
    have hb : buf = b := by
      have h2 : (Except.ok buf : Except String Bytes) = Except.ok b := hok
      exact Except.ok.inj h2
    subst hb
    simp [chainLoop, hfail]
  | cons p pre ih =>
    intro buf hok
    rw [composeChain, List.foldlM_cons] at hok
    cases hp : run p buf with
    | error e₁ =>
      rw [hp] at hok
      have h2 : (Except.error e₁ : Except String Bytes) = Except.ok b := hok
      exact Except.noConfusion h2
    | ok m =>
      rw [hp] at hok
      have hok' : composeChain run pre m = Except.ok b := hok
      simp [List.cons_append, chainLoop, hp, ih m hok']

theorem mapLookup_fsUpdate (p : GoStr) (b : Bytes) :
    ∀ (fs : FS) (a : Bytes), mapLookup p fs = some a →
      mapLookup p (fsUpdate p b fs) = some b := by
  intro fs
  induction fs with
  | nil => intro a h; exact absurd h (by simp [mapLookup])
  | cons kv rest ih =>
    intro a h
    rw [mapLookup] at h
    by_cases hk : kv.1 = p
    · rw [fsUpdate, List.map_cons, if_pos hk, mapLookup, if_pos hk]
    · rw [if_neg hk] at h
      rw [fsUpdate, List.map_cons, if_neg hk, mapLookup, if_neg hk]
      exact ih a h

/-- Claim C2: for every non-empty command chain and every input on which
all stages succeed, the chain executor output equals the left-to-right
composition of the process runner over the commands in declared order; in
particular a chain of length one behaves as the single runner call. -/
theorem chain_eq_runner_composition (run : Runner) (chain : List Cmd) (src b : Bytes)
    (hne : chain ≠ []) (hcomp : composeChain run chain src = Except.ok b) :
    (formatChainT run chain src).1 = Except.ok b ∧ (chainToDst run chain src).2.2 = b := by
  have hT : (formatChainT run chain src).1 = Except.ok b := by
    cases chain with
    | nil => exact absurd rfl hne
    | cons c rest =>
      rw [formatChainT_cons, chainLoop_fst_eq_compose]
      exact hcomp
  refine ⟨hT, ?_⟩
  rcases hTT : formatChainT run chain src with ⟨r, sp⟩
  rw [hTT] at hT
  have hr : r = Except.ok b := hT
  subst hr
  simp [chainToDst, hTT]

/-- Witness for C2 at a concrete two-stage chain. -/
theorem chain_eq_runner_composition_witness :
    (formatChainT runLenW [["a"], ["b", "c"]] [7]).1 = Except.ok [2, 1, 7] ∧
    (chainToDst runLenW [["a"], ["b", "c"]] [7]).2.2 = [2, 1, 7] :=
  chain_eq_runner_composition runLenW [["a"], ["b", "c"]] [7] [2, 1, 7] (by decide) rfl

/-- Claim C3: when stage i is the first failing stage, the chain executor
runs exactly the stages up to and including i, returns that stage error
unchanged, and writes nothing to the destination. -/
theorem chain_short_circuits_on_first_failure (run : Runner) (pre post : List Cmd) (c : Cmd)
    (src b : Bytes) (e : String)
    (hpre : composeChain run pre src = Except.ok b) (hfail : run c b = Except.error e) :
    chainToDst run (pre ++ c :: post) src = (Except.error e, pre ++ [c], []) := by
  have hloop := chainLoop_first_fail run c post b e hfail pre src hpre
  have hT : formatChainT run (pre ++ c :: post) src = (Except.error e, pre ++ [c]) := by
    cases pre with
    | nil => exact hloop
    | cons p pre2 => exact hloop
  simp [chainToDst, hT]

/-- Witness for C3: the middle stage of a three-stage chain fails. -/
theorem chain_short_circuits_on_first_failure_witness :
    chainToDst runFailW ([["a"]] ++ ["fail"] :: [["b"]]) [5] =
      (Except.error "boom", [["a"]] ++ [["fail"]], []) :=
  chain_short_circuits_on_first_failure runFailW [["a"]] [["b"]] ["fail"] [5] [0, 5] "boom" rfl rfl

/-- Claim C4: resolving by extension behaves exactly as extracting the
substring of the path from its last dot to the end (the dot included) and
looking that up, with no formatter when the path has no such extension. -/
theorem resolveByExtension_matches_spec :
    ∀ p : GoStr, formatterForPath p = specResolveByExtension p := by
  intro p
  rcases extGo_specExt_dichotomy p.reverse [] with heq | ⟨hnil, hdisj⟩
  · have h1 : extGo p = specExt p := heq
    rw [formatterForPath, specResolveByExtension, h1]
  · have hgo : extGo p = [] := hnil
    rcases hdisj with hmem | hnil2
    · have hmem2 : '/' ∈ specExt p := hmem
      have hne : specExt p ≠ [] := by
        intro h0
        rw [h0] at hmem2
        cases hmem2
      rw [formatterForPath, if_pos hgo, specResolveByExtension, if_neg hne,
        mapLookup_slash_none (specExt p) hmem2]
    · have hsp : specExt p = [] := hnil2
      rw [formatterForPath, if_pos hgo, specResolveByExtension, if_pos hsp]

/-- Claim C5: a path ending in an extension registered by some formatter
resolves to that formatter, and a path ending in an extension registered
by no formatter resolves to none. -/
theorem resolveByExtension_registry (e p q : GoStr)
    (he : isStdExt e = true) (hp : p = q ++ e) :
    (∀ f ∈ formattersList, e ∈ f.Extensions → formatterForPath p = some f) ∧
    ((∀ f ∈ formattersList, e ∉ f.Extensions) → formatterForPath p = none) := by
  subst hp
  have hext : extGo (q ++ e) = e := extGo_of_ext_suffix e q he
  obtain ⟨s, rfl, -, -⟩ := isStdExt_parts e he
  have hne : ('.' :: s : GoStr) ≠ [] := List.cons_ne_nil _ _
  constructor
  · intro f hf hmem
    rw [formatterForPath, hext, if_neg hne]
    exact lookup_ext_registered f hf _ hmem
  · intro h
    rw [formatterForPath, hext, if_neg hne]
    exact mapLookup_buildMapAux_none (fun f => f.Extensions) formattersList [] ('.' :: s) h

/-- Witness for C5 at the path m.go with the registered extension .go. -/
theorem resolveByExtension_registry_witness :
    formatterForPath ['m', '.', 'g', 'o'] = some fmtGo :=
  (resolveByExtension_registry ['.', 'g', 'o'] ['m', '.', 'g', 'o'] ['m']
    (by decide) rfl).1 fmtGo (by decide) (by decide)

/-- Claim C6: dispatching a path whose extension no formatter registers is
a successful no-op: no error, no file opened, no process spawned, and the
file system untouched. -/
theorem dispatch_unregistered_extension_noop (op : FormatOp) (path : GoStr) (fs : FS)
    (h : ∀ f ∈ formattersList, extGo path ∉ f.Extensions) :
    formatFile op path fs = (Except.ok (), fs, []) := by
  have hnone : formatterForPath path = none := by
    by_cases hz : extGo path = []
    · rw [formatterForPath, if_pos hz]
    · rw [formatterForPath, if_neg hz]
      exact mapLookup_buildMapAux_none (fun f => f.Extensions) formattersList [] (extGo path) h
  simp [formatFile, hnone]

/-- Witness for C6 at the path a.xyz. -/
theorem dispatch_unregistered_extension_noop_witness :
    formatFile opW ['a', '.', 'x', 'y', 'z'] [] = (Except.ok (), [], []) :=
  dispatch_unregistered_extension_noop opW ['a', '.', 'x', 'y', 'z'] [] (by decide)

/-- Claim C7: formatting standard input with an empty or unregistered mode
name fails with the unresolved-mode error, spawning no process and
writing nothing to standard output. -/
theorem formatStdin_unresolved_mode_fails (run : Runner) (mode : String) (stdinBytes : Bytes)
    (h : mode = "" ∨ ∀ f ∈ formattersList, mode ∉ f.EmacsMajorModes) :
    formatStdin run mode stdinBytes = (Except.error "Must be given an Emacs major mode", []) := by
  have hnone : formatterForEmacs mode = none := by
    rcases h with h | h
    · rw [formatterForEmacs, if_pos h]
    · by_cases hz : mode = ""
      · rw [formatterForEmacs, if_pos hz]
      · rw [formatterForEmacs, if_neg hz]
        exact mapLookup_buildMapAux_none (fun f => f.EmacsMajorModes) formattersList [] mode h
  simp [formatStdin, hnone]

/-- Witness for C7 at the empty mode name. -/
theorem formatStdin_unresolved_mode_fails_witness :
    formatStdin runOkW "" [3] = (Except.error "Must be given an Emacs major mode", []) :=
  formatStdin_unresolved_mode_fails runOkW "" [3] (Or.inl rfl)

/-- Claim C8: formatting to standard output never changes the on-disk
bytes of any file, whether the open fails, a stage fails, or the chain
succeeds. -/
theorem formatStdout_preserves_source_file (run : Runner) (path : GoStr) (f : Formatter) (fs : FS) :
    (formatStdout run path f fs).2.1 = fs := by
  cases h : mapLookup path fs with
  | none => simp [formatStdout, h]
  | some a =>
    rcases hc : chainToDst run f.Commands a with ⟨r, sp, w⟩
    cases r with
    | error e => simp [formatStdout, h, hc]
    | ok u => simp [formatStdout, h, hc]

/-- Claim C1: format-in-place is all-or-nothing: when any stage fails the
file keeps exactly its old bytes and no truncate, seek or write happens;
when the whole chain succeeds producing b, the file holds exactly b. -/
theorem formatWrite_all_or_nothing (run : Runner) (path : GoStr) (f : Formatter) (fs : FS) (a : Bytes)
    (h : mapLookup path fs = some a) :
    (∀ e sp w, chainToDst run f.Commands a = (Except.error e, sp, w) →
      formatWrite run path f fs = (Except.error e, fs, Event.openRW path :: sp.map Event.spawn) ∧
      ∀ ev ∈ (formatWrite run path f fs).2.2, isFileWriteEvent ev = false) ∧
    (∀ sp b, chainToDst run f.Commands a = (Except.ok (), sp, b) →
      (formatWrite run path f fs).1 = Except.ok () ∧
      mapLookup path (formatWrite run path f fs).2.1 = some b) := by
  constructor
  · intro e sp w hc
    have heq : formatWrite run path f fs =
        (Except.error e, fs, Event.openRW path :: sp.map Event.spawn) := by
      simp [formatWrite, h, hc]
    refine ⟨heq, ?_⟩
    rw [heq]
    intro ev hev
    simp only [List.mem_cons, List.mem_map] at hev
    rcases hev with rfl | ⟨c, -, rfl⟩
    · rfl
    · rfl
  · intro sp b hc
    have heq : formatWrite run path f fs =
        (Except.ok (), fsUpdate path (writeAt 0 (fileTruncate a 0) b) fs,
          Event.openRW path :: sp.map Event.spawn ++
            [Event.truncate path, Event.seek path, Event.writeFile path b]) := by
      simp [formatWrite, h, hc]
    rw [heq]
    refine ⟨rfl, ?_⟩
    have hb : writeAt 0 (fileTruncate a 0) b = b := by
      simp [writeAt, fileTruncate]
    rw [hb]
    exact mapLookup_fsUpdate path b fs a h

/-- Witness for C1: a one-file file system, the Go formatter chain and a
runner that appends one byte. -/
theorem formatWrite_all_or_nothing_witness :
    (formatWrite runOkW ['f'] fmtGo [(['f'], [9])]).1 = Except.ok () ∧
    mapLookup ['f'] (formatWrite runOkW ['f'] fmtGo [(['f'], [9])]).2.1 = some [9, 1] :=
  (formatWrite_all_or_nothing runOkW ['f'] fmtGo [(['f'], [9])] [9] rfl).2
    [["goimports"]] [9, 1] rfl

/-- Claim C9: an invocation whose arguments are one or more paths (and not
the single dash) applies the dispatch exactly once to every path argument
in order, the first included. -/
theorem main_dispatches_every_path_argument (isDir : GoStr → Bool) (args : List GoStr)
    (h1 : args ≠ []) (h2 : args ≠ [['-']]) :
    ∃ calls, mainRun isDir args = MainOutcome.dispatched calls ∧
      calls.map MainCall.path = args := by
  have hlen : ¬ args.length < 1 := by
    cases args with
    | nil => exact absurd rfl h1
    | cons a l => simp
  have hdash : ¬ (args.length = 1 ∧ args.head? = some ['-']) := by
    rintro ⟨hl, hh⟩
    apply h2
    cases args with
    | nil => cases hl
    | cons a l =>
      cases l with
      | nil =>
        have ha : a = ['-'] := by simpa using hh
        rw [ha]
      | cons b l2 => simp at hl
  rw [mainRun, if_neg hlen, if_neg hdash]
  refine ⟨_, rfl, ?_⟩
  clear h1 h2 hlen hdash
  induction args with
  | nil => rfl
  | cons a l ih =>
    rw [List.map_cons, List.map_cons, ih]
    by_cases hd : isDir a <;> simp [hd, MainCall.path]

/-- Witness for C9 at a two-argument invocation of plain files. -/
theorem main_dispatches_every_path_argument_witness :
    ∃ calls, mainRun (fun _ => false) [['a', '.', 'c'], ['b']] = MainOutcome.dispatched calls ∧
      calls.map MainCall.path = [['a', '.', 'c'], ['b']] :=
  main_dispatches_every_path_argument (fun _ => false) [['a', '.', 'c'], ['b']]
    (by decide) (by decide)

/-- Claim C10: every command of every formatter in the static list has a
program name, so the runner access of the first token never fails. -/
theorem registry_commands_nonempty (f : Formatter) (hf : f ∈ formattersList)
    (c : Cmd) (hc : c ∈ f.Commands) : (spawnProgram c).isSome = true := by
  have hall : ∀ g ∈ formattersList, ∀ d ∈ g.Commands, (spawnProgram d).isSome = true := by decide
  exact hall f hf c hc

/-- Witness for C10 at the first Python command. -/
theorem registry_commands_nonempty_witness :
    (spawnProgram ["autopep8", "--max-line-length=98", "-"]).isSome = true :=
  registry_commands_nonempty fmtPy (by decide) ["autopep8", "--max-line-length=98", "-"] (by decide)
